import Mathlib

/-!
# Verification of the studio maintenance scripts

Shallow embedding of the OpenAPI spec synchronizer
(`src/scripts/sync_openapi_with_backend.py`) and of the per-file write
gates of the textual rewriter scripts (`src/fix_any_types.py`,
`src/final-yaml-fix.py`, `src/fix-schema-refs.py`,
`src/fix-config-schema-indentation.py`).

The YAML document loaded by `yaml.safe_load` is modelled as a tree of
insertion-ordered mappings, sequences and scalars.  Python dictionary
operations (`d.get`, `key in d`, `del d[key]`, `d[key] = v`) are modelled
on association lists; operations that can raise a Python exception
(`in` on a non-iterable, `del` on a non-mapping, attribute access on a
non-mapping) return `Except`.
-/

namespace Studio

/-- In-memory document tree produced by the YAML loader: nested
insertion-ordered mappings, sequences and scalars. -/
inductive Yaml where
  | nullV : Yaml
  | boolV : Bool → Yaml
  | intV : Int → Yaml
  | strV : String → Yaml
  | seqV : List Yaml → Yaml
  | mapV : List (String × Yaml) → Yaml

mutual

/-- Decidable equality on document trees. -/
def Yaml.decEq : (a b : Yaml) → Decidable (a = b)
  | .nullV, .nullV => isTrue rfl
  | .boolV x, .boolV y =>
      if h : x = y then isTrue (by rw [h])
      else isFalse (fun hh => by cases hh; exact h rfl)
  | .intV x, .intV y =>
      if h : x = y then isTrue (by rw [h])
      else isFalse (fun hh => by cases hh; exact h rfl)
  | .strV x, .strV y =>
      if h : x = y then isTrue (by rw [h])
      else isFalse (fun hh => by cases hh; exact h rfl)
  | .seqV l, .seqV l' =>
      match Yaml.decEqL l l' with
      | isTrue h => isTrue (by rw [h])
      | isFalse h => isFalse (fun hh => by cases hh; exact h rfl)
  | .mapV m, .mapV m' =>
      match Yaml.decEqM m m' with
      | isTrue h => isTrue (by rw [h])
      | isFalse h => isFalse (fun hh => by cases hh; exact h rfl)
  | .nullV, .boolV _ => isFalse (fun h => Yaml.noConfusion h)
  | .nullV, .intV _ => isFalse (fun h => Yaml.noConfusion h)
  | .nullV, .strV _ => isFalse (fun h => Yaml.noConfusion h)
  | .nullV, .seqV _ => isFalse (fun h => Yaml.noConfusion h)
  | .nullV, .mapV _ => isFalse (fun h => Yaml.noConfusion h)
  | .boolV _, .nullV => isFalse (fun h => Yaml.noConfusion h)
  | .boolV _, .intV _ => isFalse (fun h => Yaml.noConfusion h)
  | .boolV _, .strV _ => isFalse (fun h => Yaml.noConfusion h)
  | .boolV _, .seqV _ => isFalse (fun h => Yaml.noConfusion h)
  | .boolV _, .mapV _ => isFalse (fun h => Yaml.noConfusion h)
  | .intV _, .nullV => isFalse (fun h => Yaml.noConfusion h)
  | .intV _, .boolV _ => isFalse (fun h => Yaml.noConfusion h)
  | .intV _, .strV _ => isFalse (fun h => Yaml.noConfusion h)
  | .intV _, .seqV _ => isFalse (fun h => Yaml.noConfusion h)
  | .intV _, .mapV _ => isFalse (fun h => Yaml.noConfusion h)
  | .strV _, .nullV => isFalse (fun h => Yaml.noConfusion h)
  | .strV _, .boolV _ => isFalse (fun h => Yaml.noConfusion h)
  | .strV _, .intV _ => isFalse (fun h => Yaml.noConfusion h)
  | .strV _, .seqV _ => isFalse (fun h => Yaml.noConfusion h)
  | .strV _, .mapV _ => isFalse (fun h => Yaml.noConfusion h)
  | .seqV _, .nullV => isFalse (fun h => Yaml.noConfusion h)
  | .seqV _, .boolV _ => isFalse (fun h => Yaml.noConfusion h)
  | .seqV _, .intV _ => isFalse (fun h => Yaml.noConfusion h)
  | .seqV _, .strV _ => isFalse (fun h => Yaml.noConfusion h)
  | .seqV _, .mapV _ => isFalse (fun h => Yaml.noConfusion h)
  | .mapV _, .nullV => isFalse (fun h => Yaml.noConfusion h)
  | .mapV _, .boolV _ => isFalse (fun h => Yaml.noConfusion h)
  | .mapV _, .intV _ => isFalse (fun h => Yaml.noConfusion h)
  | .mapV _, .strV _ => isFalse (fun h => Yaml.noConfusion h)
  | .mapV _, .seqV _ => isFalse (fun h => Yaml.noConfusion h)

/-- Decidable equality on sequences of document trees. -/
def Yaml.decEqL : (l l' : List Yaml) → Decidable (l = l')
  | [], [] => isTrue rfl
  | [], _ :: _ => isFalse (fun h => List.noConfusion h)
  | _ :: _, [] => isFalse (fun h => List.noConfusion h)
  | x :: xs, y :: ys =>
      match Yaml.decEq x y with
      | isFalse h => isFalse (fun hh => by cases hh; exact h rfl)
      | isTrue h =>
          match Yaml.decEqL xs ys with
          | isTrue h' => isTrue (by rw [h, h'])
          | isFalse h' => isFalse (fun hh => by cases hh; exact h' rfl)

/-- Decidable equality on mapping entry lists. -/
def Yaml.decEqM : (m m' : List (String × Yaml)) → Decidable (m = m')
  | [], [] => isTrue rfl
  | [], _ :: _ => isFalse (fun h => List.noConfusion h)
  | _ :: _, [] => isFalse (fun h => List.noConfusion h)
  | (k, v) :: r, (k', v') :: r' =>
      if hk : k = k' then
        match Yaml.decEq v v' with
        | isFalse h => isFalse (fun hh => by cases hh; exact h rfl)
        | isTrue h =>
            match Yaml.decEqM r r' with
            | isTrue h' => isTrue (by rw [hk, h, h'])
            | isFalse h' => isFalse (fun hh => by cases hh; exact h' rfl)
      else isFalse (fun hh => by cases hh; exact hk rfl)

end

instance : DecidableEq Yaml := Yaml.decEq

instance : DecidableEq (Except String Yaml) := fun a b =>
  match a, b with
  | .ok x, .ok y =>
      if h : x = y then isTrue (by rw [h])
      else isFalse (fun hh => by cases hh; exact h rfl)
  | .error x, .error y =>
      if h : x = y then isTrue (by rw [h])
      else isFalse (fun hh => by cases hh; exact h rfl)
  | .ok _, .error _ => isFalse (fun h => Except.noConfusion h)
  | .error _, .ok _ => isFalse (fun h => Except.noConfusion h)

/-- Lookup `m[key]` on an insertion-ordered mapping (first binding wins,
as Python dictionaries hold at most one binding per key). -/
def mapGet : List (String × Yaml) → String → Option Yaml
  | [], _ => none
  | (k, v) :: rest, key => if k = key then some v else mapGet rest key

/-- Assignment `m[key] = val` on an insertion-ordered mapping: an existing binding is
updated in place (Python keeps its position in insertion order), a new
binding is appended at the end. -/
def mapSet : List (String × Yaml) → String → Yaml → List (String × Yaml)
  | [], key, val => [(key, val)]
  | (k, v) :: rest, key, val =>
      if k = key then (key, val) :: rest else (k, v) :: mapSet rest key val

/-- Membership `key in m` on a mapping. -/
def mapHas (m : List (String × Yaml)) (key : String) : Bool :=
  m.any (fun kv => kv.1 == key)

/-- Deletion `del m[key]` on a mapping. -/
def mapDel (m : List (String × Yaml)) (key : String) : List (String × Yaml) :=
  m.filter (fun kv => kv.1 != key)

/-- Test whether `pat` occurs at the front of `cs`. -/
def chPre : List Char → List Char → Bool
  | [], _ => true
  | _ :: _, [] => false
  | p :: ps, c :: cs => p == c && chPre ps cs

/-- Test whether `pat` occurs somewhere inside `cs` (Python `pat in str`). -/
def chSub : List Char → List Char → Bool
  | p, [] => p.isEmpty
  | p, c :: cs => chPre p (c :: cs) || chSub p cs

/-- Python `needle in v`: key membership on a dict, element membership on a
list, substring membership on a str; raises `TypeError` on
non-iterable values (`None`, booleans, numbers). -/
def pyIn (needle : String) : Yaml → Except String Bool
  | .mapV m => .ok (mapHas m needle)
  | .seqV l => .ok (l.contains (Yaml.strV needle))
  | .strV s => .ok (chSub needle.toList s.toList)
  | _ => .error "TypeError: argument is not iterable"

/-- Python `del v[key]` with a string key: deletes the binding from a dict
(`KeyError` when absent); raises `TypeError` on every other value. -/
def pyDelKey (v : Yaml) (key : String) : Except String Yaml :=
  match v with
  | .mapV m =>
      if mapHas m key then .ok (.mapV (mapDel m key)) else .error "KeyError"
  | _ => .error "TypeError: object does not support item deletion"

/-- The deletion loop shared by `remove_paths` and `remove_user_fields`:
`for k in keys: if k in v: del v[k]`.  The first raised exception aborts
the loop. -/
def delLoop : Yaml → List String → Except String Yaml
  | v, [] => .ok v
  | v, k :: rest =>
      match pyIn k v with
      | .error e => .error e
      | .ok b =>
          match (if b then pyDelKey v k else .ok v) with
          | .error e => .error e
          | .ok v' => delLoop v' rest

/-- Constant `REMOVE_ENDPOINTS` from src/scripts/sync_openapi_with_backend.py. -/
def REMOVE_ENDPOINTS : List String := ["/api/v2/auth/permissions"]

/-- Constant `REMOVE_USER_FIELDS` from src/scripts/sync_openapi_with_backend.py. -/
def REMOVE_USER_FIELDS : List String := ["permissions", "roles"]

/-- Function `remove_paths(openapi)`:
`paths = openapi.get("paths", {})`; for each configured endpoint,
`if ep in paths: del paths[ep]`; finally `openapi["paths"] = paths`.
Attribute access on a non-dict document raises `AttributeError`. -/
def remove_paths : Yaml → Except String Yaml
  | .mapV m =>
      match delLoop ((mapGet m "paths").getD (.mapV [])) REMOVE_ENDPOINTS with
      | .error e => .error e
      | .ok paths' => .ok (.mapV (mapSet m "paths" paths'))
  | _ => .error "AttributeError: object has no attribute get"

/-- Body of the `remove_user_fields` loop for one schema entry:
entries that are not dicts are skipped; for a dict with a `properties`
key, each configured field present in `properties` is deleted. -/
def processSchema : Yaml → Except String Yaml
  | .mapV sm =>
      match mapGet sm "properties" with
      | some props =>
          match delLoop props REMOVE_USER_FIELDS with
          | .error e => .error e
          | .ok props' => .ok (.mapV (mapSet sm "properties" props'))
      | none => .ok (.mapV sm)
  | v => .ok v

/-- Loop `for schema_name, schema in schemas.items(): ...` — entries are
visited in insertion order; the first raising entry aborts the loop. -/
def processSchemas : List (String × Yaml) → Except String (List (String × Yaml))
  | [] => .ok []
  | (n, s) :: rest =>
      match processSchema s with
      | .error e => .error e
      | .ok s' =>
          match processSchemas rest with
          | .error e => .error e
          | .ok rest' => .ok ((n, s') :: rest')

/-- Function `remove_user_fields(openapi)`:
`components = openapi.get("components", {})`;
`schemas = components.get("schemas", {})`; iterate the schema entries;
finally `components["schemas"] = schemas; openapi["components"] = components`.
`.get` on a non-dict `components` and `.items()` on a non-dict `schemas`
raise `AttributeError`. -/
def remove_user_fields : Yaml → Except String Yaml
  | .mapV m =>
      match (mapGet m "components").getD (.mapV []) with
      | .mapV cm =>
          match (mapGet cm "schemas").getD (.mapV []) with
          | .mapV sm =>
              match processSchemas sm with
              | .error e => .error e
              | .ok sm' => .ok (.mapV (mapSet m "components"
                    (.mapV (mapSet cm "schemas" (.mapV sm')))))
          | _ => .error "AttributeError: object has no attribute items"
      | _ => .error "AttributeError: object has no attribute get"
  | _ => .error "AttributeError: object has no attribute get"

/-- The two in-memory removal passes of `main`, in order. -/
def syncDoc (d : Yaml) : Except String Yaml :=
  match remove_paths d with
  | .error e => .error e
  | .ok d₁ => remove_user_fields d₁

/-! ## Association-list laws -/

theorem mapGet_mapSet_self (m : List (String × Yaml)) (k : String) (v : Yaml) :
    mapGet (mapSet m k v) k = some v := by
  induction m with
  | nil => simp [mapSet, mapGet]
  | cons kv rest ih =>
      obtain ⟨k', v'⟩ := kv
      by_cases h : k' = k
      · simp [mapSet, h, mapGet]
      · simp [mapSet, h, mapGet, ih]

theorem mapGet_mapSet_ne (m : List (String × Yaml)) (k key : String) (v : Yaml)
    (h : k ≠ key) : mapGet (mapSet m key v) k = mapGet m k := by
  induction m with
  | nil => simp [mapSet, mapGet, Ne.symm h]
  | cons kv rest ih =>
      obtain ⟨k', v'⟩ := kv
      by_cases h' : k' = key
      · subst h'
        simp [mapSet, mapGet, Ne.symm h]
      · simp only [mapSet, if_neg h']
        by_cases h'' : k' = k
        · simp [mapGet, h'']
        · simp [mapGet, h'', ih]

theorem mapSet_eq_of_get (m : List (String × Yaml)) (k : String) (v : Yaml)
    (h : mapGet m k = some v) : mapSet m k v = m := by
  induction m with
  | nil => simp [mapGet] at h
  | cons kv rest ih =>
      obtain ⟨k', v'⟩ := kv
      by_cases h' : k' = k
      · subst h'
        have hv : v' = v := by simpa [mapGet] using h
        subst hv
        simp [mapSet]
      · simp only [mapGet, if_neg h'] at h
        simp [mapSet, h', ih h]

theorem mapHas_mapDel_self (m : List (String × Yaml)) (k : String) :
    mapHas (mapDel m k) k = false := by
  simp only [mapHas, mapDel, List.any_eq_false]
  intro kv hkv
  have hp := List.of_mem_filter hkv
  simp only [bne_iff_ne, ne_eq] at hp
  simp [hp]

theorem mapHas_mapDel_of_not (m : List (String × Yaml)) (k key : String)
    (h : mapHas m k = false) : mapHas (mapDel m key) k = false := by
  simp only [mapHas, mapDel, List.any_eq_false] at h ⊢
  intro kv hkv
  exact h kv (List.mem_of_mem_filter hkv)

/-! ## The deletion loop -/

/-- On a mapping, the deletion loop succeeds and removes exactly the
bindings whose key is in the removal list. -/
theorem delLoop_mapV (keys : List String) (pm : List (String × Yaml)) :
    delLoop (.mapV pm) keys =
      .ok (.mapV (pm.filter (fun kv => !(keys.contains kv.1)))) := by
  induction keys generalizing pm with
  | nil => simp [delLoop]
  | cons k rest ih =>
      cases h : mapHas pm k with
      | true =>
          simp only [delLoop, pyIn, h, if_pos, pyDelKey, ih, mapDel,
            List.filter_filter]
          congr 2
          apply List.filter_congr
          intro kv _
          by_cases hc : kv.1 = k <;> simp [hc, List.contains_cons]
      | false =>
          simp only [delLoop, pyIn, h, Bool.false_eq_true, if_false, ih]
          congr 2
          apply List.filter_congr
          intro kv hkv
          have hne : (kv.1 = k) = False := by
            simp only [eq_iff_iff, iff_false]
            intro hc
            have : mapHas pm k = true := by
              simp only [mapHas, List.any_eq_true]
              exact ⟨kv, hkv, by simp [hc]⟩
            simp [this] at h
          simp [List.contains_cons, hne]

/-- A successful run of the deletion loop preserves membership checks that
were already false: deleting other keys never makes a key appear. -/
theorem pyIn_delLoop_of_false (keys : List String) (k : String) (v v' : Yaml)
    (h : pyIn k v = .ok false) (hl : delLoop v keys = .ok v') :
    pyIn k v' = .ok false := by
  induction keys generalizing v with
  | nil =>
      simp only [delLoop, Except.ok.injEq] at hl
      rw [← hl]; exact h
  | cons k₀ rest ih =>
      cases v with
      | mapV m =>
          simp only [pyIn, Except.ok.injEq] at h
          cases h₀ : mapHas m k₀ with
          | true =>
              simp only [delLoop, pyIn, h₀, if_pos, pyDelKey] at hl
              exact ih (Yaml.mapV (mapDel m k₀))
                (by simp [pyIn, mapHas_mapDel_of_not m k k₀ h]) hl
          | false =>
              simp only [delLoop, pyIn, h₀, Bool.false_eq_true, if_false] at hl
              exact ih (Yaml.mapV m) (by simp [pyIn, h]) hl
      | seqV l =>
          simp only [pyIn, Except.ok.injEq] at h
          cases h₀ : l.contains (Yaml.strV k₀) with
          | true =>
              simp only [delLoop, pyIn, h₀, if_pos, pyDelKey] at hl
              exact Except.noConfusion hl
          | false =>
              simp only [delLoop, pyIn, h₀, Bool.false_eq_true, if_false] at hl
              exact ih (Yaml.seqV l)
                (by simp only [pyIn, Except.ok.injEq]; exact h) hl
      | strV s =>
          simp only [pyIn, Except.ok.injEq] at h
          cases h₀ : chSub k₀.toList s.toList with
          | true =>
              simp only [delLoop, pyIn, h₀, if_pos, pyDelKey] at hl
              exact Except.noConfusion hl
          | false =>
              simp only [delLoop, pyIn, h₀, Bool.false_eq_true, if_false] at hl
              exact ih (Yaml.strV s)
                (by simp only [pyIn, Except.ok.injEq]; exact h) hl
      | nullV => simp [pyIn] at h
      | boolV b => simp [pyIn] at h
      | intV n => simp [pyIn] at h

/-- After a successful run of the deletion loop, none of the processed keys
is still contained in the result. -/
theorem delLoop_not_mem (keys : List String) (v v' : Yaml)
    (hl : delLoop v keys = .ok v') :
    ∀ k ∈ keys, pyIn k v' = .ok false := by
  induction keys generalizing v with
  | nil => intro k hk; cases hk
  | cons k₀ rest ih =>
      intro k hk
      cases hb : pyIn k₀ v with
      | error e => simp [delLoop, hb] at hl
      | ok b =>
          cases b with
          | false =>
              simp only [delLoop, hb, Bool.false_eq_true, if_false] at hl
              rcases List.mem_cons.mp hk with hk₀ | hkr
              · subst hk₀
                exact pyIn_delLoop_of_false rest k v v' hb hl
              · exact ih v hl k hkr
          | true =>
              cases hd : pyDelKey v k₀ with
              | error e => simp [delLoop, hb, hd] at hl
              | ok v₁ =>
                  simp only [delLoop, hb, if_pos, hd] at hl
                  have hv₁ : pyIn k₀ v₁ = .ok false := by
                    cases v with
                    | mapV m =>
                        simp only [pyDelKey] at hd
                        cases hm : mapHas m k₀ with
                        | true =>
                            rw [hm] at hd
                            simp only [if_pos, Except.ok.injEq] at hd
                            rw [← hd]
                            simp [pyIn, mapHas_mapDel_self]
                        | false => simp [hm, Bool.false_eq_true, if_false] at hd
                    | nullV => simp [pyDelKey] at hd
                    | boolV _ => simp [pyDelKey] at hd
                    | intV _ => simp [pyDelKey] at hd
                    | strV _ => simp [pyDelKey] at hd
                    | seqV _ => simp [pyDelKey] at hd
                  rcases List.mem_cons.mp hk with hk₀ | hkr
                  · subst hk₀
                    exact pyIn_delLoop_of_false rest k v₁ v' hv₁ hl
                  · exact ih v₁ hl k hkr

/-- The deletion loop does nothing when none of the keys is contained. -/
theorem delLoop_of_not_mem (keys : List String) (v : Yaml)
    (h : ∀ k ∈ keys, pyIn k v = .ok false) :
    delLoop v keys = .ok v := by
  induction keys with
  | nil => simp [delLoop]
  | cons k₀ rest ih =>
      have h₀ := h k₀ (List.mem_cons_self k₀ rest)
      simp only [delLoop, h₀, Bool.false_eq_true, if_false]
      exact ih (fun k hk => h k (List.mem_cons_of_mem k₀ hk))

/-- A second run of the deletion loop on the result of a successful first
run returns the result unchanged. -/
theorem delLoop_idem (keys : List String) (v v' : Yaml)
    (hl : delLoop v keys = .ok v') : delLoop v' keys = .ok v' :=
  delLoop_of_not_mem keys v' (delLoop_not_mem keys v v' hl)

/-! ## Success shapes and idempotence of the removal passes -/

/-- Processing a schema entry twice is the same as processing it once. -/
theorem processSchema_idem (s s' : Yaml) (h : processSchema s = .ok s') :
    processSchema s' = .ok s' := by
  cases s
  case mapV sm =>
      cases hp : mapGet sm "properties" with
      | none =>
          simp only [processSchema, hp, Except.ok.injEq] at h
          rw [← h]
          simp [processSchema, hp]
      | some props =>
          cases hd : delLoop props REMOVE_USER_FIELDS with
          | error e => simp [processSchema, hp, hd] at h
          | ok props' =>
              simp only [processSchema, hp, hd, Except.ok.injEq] at h
              rw [← h]
              have hidem := delLoop_idem REMOVE_USER_FIELDS props props' hd
              simp only [processSchema, mapGet_mapSet_self, hidem,
                Except.ok.injEq]
              rw [mapSet_eq_of_get _ _ _
                (mapGet_mapSet_self sm "properties" props')]
  all_goals
    simp only [processSchema, Except.ok.injEq] at h
  all_goals rw [← h]; simp [processSchema]

/-- Processing the schema table twice is the same as processing it once. -/
theorem processSchemas_idem (sm sm' : List (String × Yaml))
    (h : processSchemas sm = .ok sm') : processSchemas sm' = .ok sm' := by
  induction sm generalizing sm' with
  | nil =>
      simp only [processSchemas, Except.ok.injEq] at h
      rw [← h]
      simp [processSchemas]
  | cons p rest ih =>
      obtain ⟨n, s⟩ := p
      cases hs : processSchema s with
      | error e => simp [processSchemas, hs] at h
      | ok s' =>
          cases hr : processSchemas rest with
          | error e => simp [processSchemas, hs, hr] at h
          | ok rest' =>
              simp only [processSchemas, hs, hr, Except.ok.injEq] at h
              rw [← h]
              simp [processSchemas, processSchema_idem s s' hs, ih rest' hr]

/-- Shape of a successful `remove_paths` run. -/
theorem remove_paths_ok (d d₁ : Yaml) (h : remove_paths d = .ok d₁) :
    ∃ m p₁, d = .mapV m ∧
      delLoop ((mapGet m "paths").getD (.mapV [])) REMOVE_ENDPOINTS = .ok p₁ ∧
      d₁ = .mapV (mapSet m "paths" p₁) := by
  cases d
  case mapV m =>
      cases hd : delLoop ((mapGet m "paths").getD (.mapV [])) REMOVE_ENDPOINTS
        with
      | error e => simp [remove_paths, hd] at h
      | ok p₁ =>
          refine ⟨m, p₁, rfl, hd, ?_⟩
          simp only [remove_paths, hd, Except.ok.injEq] at h
          exact h.symm
  all_goals simp [remove_paths] at h

/-- Shape of a successful `remove_user_fields` run. -/
theorem remove_user_fields_ok (d d₂ : Yaml)
    (h : remove_user_fields d = .ok d₂) :
    ∃ m cm sm sm', d = .mapV m ∧
      (mapGet m "components").getD (.mapV []) = .mapV cm ∧
      (mapGet cm "schemas").getD (.mapV []) = .mapV sm ∧
      processSchemas sm = .ok sm' ∧
      d₂ = .mapV (mapSet m "components"
            (.mapV (mapSet cm "schemas" (.mapV sm')))) := by
  cases d
  case mapV m =>
      cases hc : (mapGet m "components").getD (.mapV [])
      case mapV cm =>
          cases hs : (mapGet cm "schemas").getD (.mapV [])
          case mapV sm =>
              cases hps : processSchemas sm with
              | error e => simp [remove_user_fields, hc, hs, hps] at h
              | ok sm' =>
                  refine ⟨m, cm, sm, sm', rfl, hc, hs, hps, ?_⟩
                  simp only [remove_user_fields, hc, hs, hps,
                    Except.ok.injEq] at h
                  exact h.symm
          all_goals simp [remove_user_fields, hc, hs] at h
      all_goals simp [remove_user_fields, hc] at h
  all_goals simp [remove_user_fields] at h

/-- A second `remove_user_fields` run on the result of a successful first
run returns the result unchanged. -/
theorem remove_user_fields_idem (d d₂ : Yaml)
    (h : remove_user_fields d = .ok d₂) :
    remove_user_fields d₂ = .ok d₂ := by
  obtain ⟨m, cm, sm, sm', _, _, _, hps, hd₂⟩ := remove_user_fields_ok d d₂ h
  subst hd₂
  have h1 : mapGet (mapSet m "components"
      (.mapV (mapSet cm "schemas" (.mapV sm')))) "components" =
      some (.mapV (mapSet cm "schemas" (.mapV sm'))) :=
    mapGet_mapSet_self m "components" _
  have h2 : mapGet (mapSet cm "schemas" (.mapV sm')) "schemas" =
      some (.mapV sm') := mapGet_mapSet_self cm "schemas" _
  simp only [remove_user_fields, h1, Option.getD_some, h2,
    processSchemas_idem sm sm' hps, Except.ok.injEq]
  rw [mapSet_eq_of_get _ _ _ h2, mapSet_eq_of_get _ _ _ h1]

/-- After `remove_paths` and then `remove_user_fields` both succeed, a
further `remove_paths` run changes nothing. -/
theorem remove_paths_after (d d₁ d₂ : Yaml) (h₁ : remove_paths d = .ok d₁)
    (h₂ : remove_user_fields d₁ = .ok d₂) : remove_paths d₂ = .ok d₂ := by
  obtain ⟨m, p₁, _, hdl, hd₁⟩ := remove_paths_ok d d₁ h₁
  obtain ⟨m₁, cm, sm, sm', hd₁', hc, hs, hps, hd₂⟩ :=
    remove_user_fields_ok d₁ d₂ h₂
  rw [hd₁] at hd₁'
  have hm₁ : mapSet m "paths" p₁ = m₁ := by injection hd₁'
  subst hd₂
  have hget₁ : mapGet m₁ "paths" = some p₁ := by
    rw [← hm₁]; exact mapGet_mapSet_self m "paths" p₁
  have hget₂ : mapGet (mapSet m₁ "components"
      (.mapV (mapSet cm "schemas" (.mapV sm')))) "paths" = some p₁ := by
    rw [mapGet_mapSet_ne _ _ _ _ (by decide)]
    exact hget₁
  have hloop : delLoop p₁ REMOVE_ENDPOINTS = .ok p₁ :=
    delLoop_idem REMOVE_ENDPOINTS _ p₁ hdl
  simp only [remove_paths, hget₂, Option.getD_some, hloop, Except.ok.injEq]
  rw [mapSet_eq_of_get _ _ _ hget₂]

/-- The two removal passes together are idempotent on success. -/
theorem syncDoc_idem (d d' : Yaml) (h : syncDoc d = .ok d') :
    syncDoc d' = .ok d' := by
  cases hrp : remove_paths d with
  | error e => simp [syncDoc, hrp] at h
  | ok d₁ =>
      simp only [syncDoc, hrp] at h
      have hrp' := remove_paths_after d d₁ d' hrp h
      have hru' := remove_user_fields_idem d₁ d' h
      simp [syncDoc, hrp', hru']

/-! ## Load, save and the `main` pipeline -/

/-- Function `load_yaml(path)` is `yaml.safe_load(f)` on the file content.
Modelled from the spec: the external YAML parser (pyyaml, not part of
this repository) is abstracted as a function from content to an optional
document tree; `none` models a raised parse error, which the spec states
occurs exactly when the content is not well-formed structured text. -/
def load_yaml (parse : String → Option Yaml) (content : String) :
    Except String Yaml :=
  match parse content with
  | some d => .ok d
  | none => .error "ParseError"

/-- Entry point `main()`: load, remove endpoints, remove fields, save.  The `ok`
value is the fully processed tree handed to `save_yaml` — the sole write
to disk; an `error` aborts the run before anything is written. -/
def mainRun (parse : String → Option Yaml) (content : String) :
    Except String Yaml :=
  match load_yaml parse content with
  | .error e => .error e
  | .ok d =>
      match remove_paths d with
      | .error e => .error e
      | .ok d₁ => remove_user_fields d₁

/-- One lower-case hexadecimal digit. -/
def hexDig (n : Nat) : Char :=
  if n < 10 then Char.ofNat (48 + n) else Char.ofNat (87 + n)

/-- Four-digit hexadecimal rendering of a code point, as used by an
ASCII escape of the form backslash-u-XXXX. -/
def hex4 (n : Nat) : String :=
  String.mk [hexDig (n / 4096 % 16), hexDig (n / 256 % 16),
    hexDig (n / 16 % 16), hexDig (n % 16)]

/-- Modelled from the spec: scalar text emission of the external YAML
serializer.  With `allow_unicode=True` non-ASCII characters are written
verbatim; with `allow_unicode=False` they are ASCII-escaped. -/
def renderScalar (allowUnicode : Bool) (s : String) : String :=
  if allowUnicode then s
  else String.join (s.toList.map (fun c =>
    if c.toNat < 128 then String.mk [c] else "\\u" ++ hex4 c.toNat))

/-- Insert a rendered entry into a key-sorted rendered entry list. -/
def insertByKey (p : String × String) :
    List (String × String) → List (String × String)
  | [] => [p]
  | q :: rest =>
      if (compare p.1 q.1).isLE then p :: q :: rest
      else q :: insertByKey p rest

/-- Sort rendered entries by key (the `sort_keys=True` behaviour). -/
def sortByKey : List (String × String) → List (String × String)
  | [] => []
  | p :: rest => insertByKey p (sortByKey rest)

mutual

/-- Modelled from the spec: the external YAML serializer (`yaml.dump`,
not part of this repository), restricted to what the claims depend on:
mapping keys are emitted in insertion order when `sort_keys=False`
and in sorted order when `sort_keys=True`, and scalars are rendered
through `renderScalar`.  Flow style is used for concreteness; the claims
concern only key order and unicode preservation. -/
def yamlDump (sortKeys allowUnicode : Bool) : Yaml → String
  | .nullV => "null"
  | .boolV b => if b then "true" else "false"
  | .intV n => toString n
  | .strV s => renderScalar allowUnicode s
  | .seqV l =>
      "[" ++ String.intercalate ", " (dumpItems sortKeys allowUnicode l) ++ "]"
  | .mapV m =>
      let rendered := dumpEntries sortKeys allowUnicode m
      let ordered := if sortKeys then sortByKey rendered else rendered
      "\x7b" ++ String.intercalate ", "
        (ordered.map (fun kv => renderScalar allowUnicode kv.1 ++ ": " ++ kv.2))
        ++ "\x7d"

/-- Render each mapping entry, in insertion order. -/
def dumpEntries (sortKeys allowUnicode : Bool) :
    List (String × Yaml) → List (String × String)
  | [] => []
  | (k, v) :: rest =>
      (k, yamlDump sortKeys allowUnicode v) ::
        dumpEntries sortKeys allowUnicode rest

/-- Render each sequence item, in order. -/
def dumpItems (sortKeys allowUnicode : Bool) : List Yaml → List String
  | [] => []
  | v :: rest =>
      yamlDump sortKeys allowUnicode v :: dumpItems sortKeys allowUnicode rest

end

/-- Function `save_yaml(data, path)` calls
`yaml.dump(data, f, sort_keys=False, allow_unicode=True)`: the text
written back to the file. -/
def save_yaml (d : Yaml) : String := yamlDump false true d

/-! ## The textual rewriter scripts -/

/-- Function `fix_any_types_in_file(filepath)` from src/fix_any_types.py.  The
chain of `re.sub` rewrites (external regex engine) is abstracted as
`sub`; `readResult` is the file content, `none` when reading raises;
`writeOk` is whether the write succeeds.  Any exception is caught and
reported as `false`.  The second component is the content written back,
`none` when the file is not rewritten. -/
def fix_any_types_in_file (sub : String → String) (readResult : Option String)
    (writeOk : Bool) : Bool × Option String :=
  match readResult with
  | none => (false, none)
  | some content =>
      let content' := sub content
      if content' ≠ content then
        if writeOk then (true, some content') else (false, none)
      else (false, none)

/-- Function `fix_yaml_schema_indentation(file_path)` from src/final-yaml-fix.py:
the regex pass and the line-rewriting loop are abstracted as `transform`;
the file is written back only when the transformed content differs from
the original. -/
def fix_yaml_schema_indentation (transform : String → String)
    (content : String) : Bool × Option String :=
  let fixed := transform content
  if fixed ≠ content then (true, some fixed) else (false, none)

/-- Function `fix_schema_ref_indentation(filepath)` from src/fix-schema-refs.py:
a single `re.sub`, abstracted as `transform`; the file is written back
only when the substituted content differs. -/
def fix_schema_ref_indentation (transform : String → String)
    (content : String) : Bool × Option String :=
  let fixed := transform content
  if fixed ≠ content then (true, some fixed) else (false, none)

/-- Function `fix_yaml_schema_indentation(file_path)` from
src/fix-config-schema-indentation.py: two regex passes and a line loop,
abstracted as `transform`; written back only on change. -/
def fix_config_schema_indentation (transform : String → String)
    (content : String) : Bool × Option String :=
  let fixed := transform content
  if fixed ≠ content then (true, some fixed) else (false, none)

/-! ## Shape predicates used to state the claims -/

/-- Whether a document tree is a mapping. -/
def Yaml.isMapB : Yaml → Bool
  | .mapV _ => true
  | _ => false

/-- A schema entry of one of the shapes whose behaviour the spec
describes: not a mapping, a mapping without `properties`, or a mapping
whose `properties` value is itself a mapping. -/
def entryCoveredB : Yaml → Bool
  | .mapV sm =>
      match mapGet sm "properties" with
      | some (.mapV _) => true
      | some _ => false
      | none => true
  | _ => true

/-- The per-entry effect of Remove Fields as the spec states it: delete
exactly the configured fields that are present in a `properties`
mapping, leave every other entry and every other part unchanged. -/
def schemaEntrySpec : Yaml → Yaml
  | .mapV sm =>
      match mapGet sm "properties" with
      | some (.mapV pm) =>
          .mapV (mapSet sm "properties"
            (.mapV (pm.filter (fun kv => !(REMOVE_USER_FIELDS.contains kv.1)))))
      | _ => .mapV sm
  | v => v

/-- The `paths` value, where present, is a mapping. -/
def pathsShapeOk (m : List (String × Yaml)) : Bool :=
  match mapGet m "paths" with
  | none => true
  | some (.mapV _) => true
  | some _ => false

/-- The `schemas` value, where present, is a mapping of covered entries. -/
def schemasShapeOk (cm : List (String × Yaml)) : Bool :=
  match mapGet cm "schemas" with
  | none => true
  | some (.mapV sm) => sm.all (fun p => entryCoveredB p.2)
  | some _ => false

/-- The `components` value, where present, is a well-shaped mapping. -/
def componentsShapeOk (m : List (String × Yaml)) : Bool :=
  match mapGet m "components" with
  | none => true
  | some (.mapV cm) => schemasShapeOk cm
  | some _ => false

/-- Shape conditions under which the removal passes raise no exception:
the document is a mapping, and the `paths`, `components`, `schemas` and
per-schema `properties` values, where present, are mappings. -/
def docShapeOk : Yaml → Bool
  | .mapV m => pathsShapeOk m && componentsShapeOk m
  | _ => false

/-! ## Supporting lemmas for the claims -/

theorem mapSet_eq_append_of_get_none (m : List (String × Yaml))
    (k : String) (v : Yaml) (h : mapGet m k = none) :
    mapSet m k v = m ++ [(k, v)] := by
  induction m with
  | nil => simp [mapSet]
  | cons kv rest ih =>
      obtain ⟨k', v'⟩ := kv
      by_cases h' : k' = k
      · simp [mapGet, h'] at h
      · simp only [mapGet, if_neg h'] at h
        simp [mapSet, h', ih h]

/-- On a covered schema entry, `remove_user_fields` computes exactly the
per-entry effect stated by the spec. -/
theorem processSchema_covered (s : Yaml) (h : entryCoveredB s = true) :
    processSchema s = .ok (schemaEntrySpec s) := by
  cases s
  case mapV sm =>
      cases hp : mapGet sm "properties" with
      | none => simp [processSchema, schemaEntrySpec, hp]
      | some props =>
          cases props
          case mapV pm =>
              simp [processSchema, schemaEntrySpec, hp, delLoop_mapV]
          all_goals simp [entryCoveredB, hp] at h
  all_goals simp [processSchema, schemaEntrySpec]

/-- On a table of covered schema entries, the schema loop succeeds and
maps the per-entry effect over the table in order. -/
theorem processSchemas_covered (sm : List (String × Yaml))
    (h : sm.all (fun p => entryCoveredB p.2) = true) :
    processSchemas sm = .ok (sm.map (fun p => (p.1, schemaEntrySpec p.2))) := by
  induction sm with
  | nil => simp [processSchemas]
  | cons p rest ih =>
      obtain ⟨n, s⟩ := p
      simp only [List.all_cons, Bool.and_eq_true] at h
      simp [processSchemas, processSchema_covered s h.1, ih h.2]

/-- With `sort_keys=False, allow_unicode=True` the serializer renders
entries in insertion order with keys verbatim. -/
theorem dumpEntries_eq_map (m : List (String × Yaml)) :
    dumpEntries false true m =
      m.map (fun kv => (kv.1, yamlDump false true kv.2)) := by
  induction m with
  | nil => simp [dumpEntries]
  | cons kv rest ih =>
      obtain ⟨k, v⟩ := kv
      simp [dumpEntries, ih]

/-- A well-shaped `paths` value means `remove_paths` succeeds, with a
mapping stored at `paths`. -/
theorem remove_paths_ok_of_shape (m : List (String × Yaml))
    (hp : pathsShapeOk m = true) :
    ∃ p', remove_paths (.mapV m) = .ok (.mapV (mapSet m "paths" (.mapV p'))) := by
  cases hpg : mapGet m "paths" with
  | none =>
      refine ⟨[], ?_⟩
      simp [remove_paths, hpg, delLoop_mapV]
  | some pv =>
      cases pv
      case mapV pm =>
          refine ⟨pm.filter (fun kv => !(REMOVE_ENDPOINTS.contains kv.1)), ?_⟩
          simp [remove_paths, hpg, delLoop_mapV]
      all_goals (rw [pathsShapeOk, hpg] at hp; simp at hp)

/-- A well-shaped `components` value means `remove_user_fields`
succeeds. -/
theorem remove_user_fields_ok_of_shape (m : List (String × Yaml))
    (hc : componentsShapeOk m = true) :
    ∃ d₂, remove_user_fields (.mapV m) = .ok d₂ := by
  cases hcg : mapGet m "components" with
  | none =>
      refine ⟨.mapV (mapSet m "components" (.mapV [("schemas", .mapV [])])), ?_⟩
      simp [remove_user_fields, hcg, mapGet, processSchemas, mapSet]
  | some cv =>
      cases cv
      case mapV cm =>
          simp only [componentsShapeOk, hcg] at hc
          cases hsg : mapGet cm "schemas" with
          | none =>
              refine ⟨.mapV (mapSet m "components"
                (.mapV (mapSet cm "schemas" (.mapV [])))), ?_⟩
              simp [remove_user_fields, hcg, hsg, processSchemas]
          | some sv =>
              cases sv
              case mapV sm =>
                  simp only [schemasShapeOk, hsg] at hc
                  refine ⟨.mapV (mapSet m "components" (.mapV (mapSet cm
                    "schemas" (.mapV (sm.map (fun p =>
                      (p.1, schemaEntrySpec p.2))))))), ?_⟩
                  simp [remove_user_fields, hcg, hsg,
                    processSchemas_covered sm hc]
              all_goals simp [schemasShapeOk, hsg] at hc
      all_goals simp [componentsShapeOk, hcg] at hc

/-- Setting `paths` does not disturb the shape of `components`. -/
theorem componentsShapeOk_mapSet_paths (m : List (String × Yaml)) (v : Yaml)
    (hc : componentsShapeOk m = true) :
    componentsShapeOk (mapSet m "paths" v) = true := by
  rw [componentsShapeOk, mapGet_mapSet_ne _ _ _ _ (by decide)]
  exact hc

/-! ## Claims -/

/-- C1: for every document whose `paths` value is a mapping, Remove
Endpoints succeeds and leaves at `paths` exactly the bindings whose key
is not in the removal list, in their original order and with their
original values — so every removal-list key is deleted when present
(and silently skipped when absent) and no other binding of `paths` is
added, removed or modified. -/
theorem remove_paths_deletes_exactly_listed (m pm : List (String × Yaml))
    (h : mapGet m "paths" = some (.mapV pm)) :
    remove_paths (.mapV m) =
      .ok (.mapV (mapSet m "paths"
        (.mapV (pm.filter (fun kv => !(REMOVE_ENDPOINTS.contains kv.1))))))
    ∧ ∀ ep ∈ REMOVE_ENDPOINTS,
        mapHas (pm.filter (fun kv => !(REMOVE_ENDPOINTS.contains kv.1))) ep
          = false := by
  constructor
  · simp [remove_paths, h, delLoop_mapV]
  · intro ep hep
    simp only [REMOVE_ENDPOINTS, List.mem_singleton] at hep
    subst hep
    simp only [mapHas, List.any_eq_false]
    intro kv hkv
    have hcont := List.of_mem_filter hkv
    simp only [REMOVE_ENDPOINTS, List.contains_cons, List.contains_nil,
      Bool.or_false] at hcont
    simp only [Bool.not_eq_eq_eq_not, Bool.not_true] at hcont
    simp [hcont]

/-- Witness for C1 at a concrete document holding both a removal-list
endpoint and an unrelated endpoint. -/
theorem remove_paths_deletes_exactly_listed_witness :
    remove_paths (.mapV [("paths", .mapV
        [("/api/v2/auth/permissions", .nullV), ("/api/v2/users", .nullV)])]) =
      .ok (.mapV [("paths", .mapV [("/api/v2/users", .nullV)])]) := by
  have h := (remove_paths_deletes_exactly_listed
    [("paths", .mapV
      [("/api/v2/auth/permissions", .nullV), ("/api/v2/users", .nullV)])]
    [("/api/v2/auth/permissions", .nullV), ("/api/v2/users", .nullV)] rfl).1
  exact h

/-- C2: for every document whose `components` and `components.schemas`
values are mappings whose entries are each either a non-mapping, a
mapping without `properties`, or a mapping with a `properties` mapping,
Remove Fields visits every entry in order and applies exactly the
spec's per-entry effect: the configured fields present in `properties`
are deleted and everything else — other fields, other parts of the
entry, non-mapping entries, mappings without `properties` — is left
unchanged. -/
theorem remove_user_fields_per_entry (m cm sm : List (String × Yaml))
    (hc : mapGet m "components" = some (.mapV cm))
    (hs : mapGet cm "schemas" = some (.mapV sm))
    (hcov : sm.all (fun p => entryCoveredB p.2) = true) :
    remove_user_fields (.mapV m) =
      .ok (.mapV (mapSet m "components" (.mapV (mapSet cm "schemas"
        (.mapV (sm.map (fun p => (p.1, schemaEntrySpec p.2)))))))) := by
  simp [remove_user_fields, hc, hs, processSchemas_covered sm hcov]

/-- Witness for C2 at a concrete document with a user schema carrying
`id`, `permissions`, `roles`, `name` and a non-mapping placeholder
entry. -/
theorem remove_user_fields_per_entry_witness :
    remove_user_fields (.mapV [("components", .mapV [("schemas", .mapV
      [("User", .mapV [("properties", .mapV [("id", .nullV),
         ("permissions", .seqV []), ("roles", .nullV), ("name", .nullV)])]),
       ("Placeholder", .strV "todo")])])]) =
      .ok (.mapV [("components", .mapV [("schemas", .mapV
        [("User", .mapV [("properties", .mapV [("id", .nullV),
           ("name", .nullV)])]),
         ("Placeholder", .strV "todo")])])]) := by
  have h := remove_user_fields_per_entry
    [("components", .mapV [("schemas", .mapV
      [("User", .mapV [("properties", .mapV [("id", .nullV),
         ("permissions", .seqV []), ("roles", .nullV), ("name", .nullV)])]),
       ("Placeholder", .strV "todo")])])]
    [("schemas", .mapV
      [("User", .mapV [("properties", .mapV [("id", .nullV),
         ("permissions", .seqV []), ("roles", .nullV), ("name", .nullV)])]),
       ("Placeholder", .strV "todo")])]
    [("User", .mapV [("properties", .mapV [("id", .nullV),
       ("permissions", .seqV []), ("roles", .nullV), ("name", .nullV)])]),
     ("Placeholder", .strV "todo")]
    rfl rfl (by decide)
  exact h

/-- C3 counterexample: the claim quantifies over every document tree, but
on a document whose `User` schema stores a sequence at `properties`, the
field-removal pass raises (`del` on a sequence with a string index is a
`TypeError`), so the removal steps do not never-raise. -/
theorem removal_raises_counterexample :
    remove_user_fields (.mapV [("components", .mapV [("schemas", .mapV
      [("User", .mapV [("properties", .seqV [.strV "roles"])])])])]) =
      .error "TypeError: object does not support item deletion" := by
  decide

/-- C3 (amended): on every document that is a mapping whose `paths`,
`components`, `schemas` and per-schema `properties` values, where
present, are mappings, the two removal passes raise no error; and a
schema entry that is not a mapping is always left untouched. -/
theorem removal_no_raise_wellshaped (d : Yaml) (h : docShapeOk d = true) :
    (∃ d', syncDoc d = .ok d')
    ∧ ∀ s : Yaml, Yaml.isMapB s = false → processSchema s = .ok s := by
  constructor
  · cases d
    case mapV m =>
        simp only [docShapeOk, Bool.and_eq_true] at h
        obtain ⟨hp, hcomp⟩ := h
        obtain ⟨p', hrp⟩ := remove_paths_ok_of_shape m hp
        have hcomp' := componentsShapeOk_mapSet_paths m (.mapV p') hcomp
        obtain ⟨d₂, hruf⟩ :=
          remove_user_fields_ok_of_shape (mapSet m "paths" (.mapV p')) hcomp'
        exact ⟨d₂, by simp [syncDoc, hrp, hruf]⟩
    all_goals simp [docShapeOk] at h
  · intro s hs
    cases s <;> simp_all [Yaml.isMapB, processSchema]

/-- Witness for C3 (amended) at a concrete document with a non-mapping
schema entry. -/
theorem removal_no_raise_wellshaped_witness :
    (∃ d', syncDoc (.mapV [("components", .mapV [("schemas", .mapV
        [("Placeholder", .strV "todo")])])]) = .ok d')
    ∧ ∀ s : Yaml, Yaml.isMapB s = false → processSchema s = .ok s :=
  removal_no_raise_wellshaped
    (.mapV [("components", .mapV [("schemas", .mapV
      [("Placeholder", .strV "todo")])])]) (by decide)

/-- C4: the removal passes are idempotent — a second application to the
result of a successful first application changes nothing — and hence a
second run of the full load/remove/remove/save pipeline on the saved
output reproduces the same tree, so the saved output of the second run
is identical to that of the first. (`parse (save_yaml out) = some out`
is the round-trip guarantee the spec attributes to the document
library.) -/
theorem sync_pipeline_idempotent (parse : String → Option Yaml)
    (d out : Yaml) (h₁ : syncDoc d = .ok out)
    (h₂ : parse (save_yaml out) = some out) :
    syncDoc out = .ok out ∧ mainRun parse (save_yaml out) = .ok out := by
  have hi := syncDoc_idem d out h₁
  refine ⟨hi, ?_⟩
  simp only [mainRun, load_yaml, h₂]
  cases hrp : remove_paths out with
  | error e => simp [syncDoc, hrp] at hi
  | ok d₁ =>
      simp only [syncDoc, hrp] at hi
      simp [hrp, hi]

/-- Witness for C4: a concrete first run followed by a second run on the
saved output. -/
theorem sync_pipeline_idempotent_witness :
    syncDoc (.mapV [("paths", .mapV []),
        ("components", .mapV [("schemas", .mapV [])])]) =
      .ok (.mapV [("paths", .mapV []),
        ("components", .mapV [("schemas", .mapV [])])])
    ∧ mainRun
        (fun s => if s = save_yaml (.mapV [("paths", .mapV []),
            ("components", .mapV [("schemas", .mapV [])])])
          then some (.mapV [("paths", .mapV []),
            ("components", .mapV [("schemas", .mapV [])])]) else none)
        (save_yaml (.mapV [("paths", .mapV []),
          ("components", .mapV [("schemas", .mapV [])])])) =
      .ok (.mapV [("paths", .mapV []),
        ("components", .mapV [("schemas", .mapV [])])]) := by
  exact sync_pipeline_idempotent _
    (.mapV [("paths", .mapV [("/api/v2/auth/permissions", .nullV)])])
    _ (by decide) (by simp)

/-- C5 counterexample: on the document without a `paths` mapping, Remove
Endpoints is not a no-op — it inserts a `paths` key bound to an empty
mapping, changing the document. -/
theorem remove_paths_absent_not_noop :
    remove_paths (.mapV []) = .ok (.mapV [("paths", .mapV [])])
    ∧ Yaml.mapV [("paths", .mapV [])] ≠ .mapV [] := by
  constructor
  · decide
  · decide

/-- C5 (amended): when the `paths` mapping is absent, Remove Endpoints
raises no error and performs no deletion, operating over an empty
mapping — though it appends a `paths` key bound to an empty mapping;
and when `paths` is a mapping containing none of the configured
endpoint keys, the document is left entirely unchanged, with no
spurious deletions. -/
theorem remove_paths_frame_conditions (m pm : List (String × Yaml)) :
    (mapGet m "paths" = none →
      remove_paths (.mapV m) = .ok (.mapV (m ++ [("paths", .mapV [])])))
    ∧ (mapGet m "paths" = some (.mapV pm) →
        (∀ kv ∈ pm, kv.1 ∉ REMOVE_ENDPOINTS) →
        remove_paths (.mapV m) = .ok (.mapV m)) := by
  constructor
  · intro h
    simp only [remove_paths, h, Option.getD_none, delLoop_mapV,
      List.filter_nil]
    rw [mapSet_eq_append_of_get_none m "paths" (.mapV []) h]
  · intro h hnone
    simp only [remove_paths, h, Option.getD_some, delLoop_mapV]
    have hfix : pm.filter (fun kv => !(REMOVE_ENDPOINTS.contains kv.1)) = pm := by
      apply List.filter_eq_self.mpr
      intro kv hkv
      have hnm := hnone kv hkv
      simp only [REMOVE_ENDPOINTS, List.mem_singleton] at hnm
      simp [REMOVE_ENDPOINTS, hnm]
    rw [hfix, mapSet_eq_of_get m "paths" (.mapV pm) h]

/-- Witness for C5 (amended): the absent-`paths` case and a `paths`
mapping free of configured endpoints. -/
theorem remove_paths_frame_conditions_witness :
    remove_paths (.mapV []) = .ok (.mapV [("paths", .mapV [])])
    ∧ remove_paths (.mapV [("paths", .mapV [("/api/v2/users", .nullV)])]) =
        .ok (.mapV [("paths", .mapV [("/api/v2/users", .nullV)])]) :=
  ⟨(remove_paths_frame_conditions [] []).1 rfl,
   (remove_paths_frame_conditions [("paths", .mapV [("/api/v2/users", .nullV)])]
     [("/api/v2/users", .nullV)]).2 rfl (by decide)⟩

/-- C6: the load step fails with a `ParseError` exactly when the parser
rejects the content, a load failure aborts the run before any mutation,
and a document reaches the save step (the sole point of persistence)
only when parsing and both removal passes succeeded — so no partially
mutated document is ever saved. -/
theorem mainRun_parse_and_persistence (parse : String → Option Yaml)
    (content : String) :
    ((∃ e, load_yaml parse content = .error e) ↔ parse content = none)
    ∧ (parse content = none → mainRun parse content = .error "ParseError")
    ∧ ∀ out, mainRun parse content = .ok out →
        ∃ d d₁, parse content = some d ∧ remove_paths d = .ok d₁ ∧
          remove_user_fields d₁ = .ok out := by
  cases hp : parse content with
  | none =>
      refine ⟨⟨fun _ => rfl, fun _ => ⟨"ParseError", by simp [load_yaml, hp]⟩⟩,
        fun _ => by simp [mainRun, load_yaml, hp], ?_⟩
      intro out hout
      simp [mainRun, load_yaml, hp] at hout
  | some d =>
      refine ⟨⟨?_, fun hn => by simp [hp] at hn⟩,
        fun hn => by simp [hp] at hn, ?_⟩
      · rintro ⟨e, he⟩
        simp [load_yaml, hp] at he
      · intro out hout
        simp only [mainRun, load_yaml, hp] at hout
        cases hrp : remove_paths d with
        | error e => rw [hrp] at hout; exact absurd hout (by simp)
        | ok d₁ =>
            rw [hrp] at hout
            exact ⟨d, d₁, rfl, hrp, hout⟩

/-- Witness for C6: a rejecting parser aborts with `ParseError`; an
accepting parser leads to a fully processed saved document. -/
theorem mainRun_parse_and_persistence_witness :
    mainRun (fun _ => none) "x" = .error "ParseError"
    ∧ ∃ d d₁, (some (Yaml.mapV []) : Option Yaml) = some d ∧
        remove_paths d = .ok d₁ ∧
        remove_user_fields d₁ = .ok (.mapV [("paths", .mapV []),
          ("components", .mapV [("schemas", .mapV [])])]) :=
  ⟨(mainRun_parse_and_persistence (fun _ => none) "x").2.1 rfl,
   (mainRun_parse_and_persistence (fun _ => some (Yaml.mapV [])) "x").2.2
     (.mapV [("paths", .mapV []),
       ("components", .mapV [("schemas", .mapV [])])]) (by decide)⟩

/-- C7: with the flags passed by `save_yaml` (`sort_keys=False`,
`allow_unicode=True`), serialization emits the mapping entries in
insertion order — keys are never sorted — and emits string scalars
verbatim, without ASCII-escaping non-ASCII characters. -/
theorem save_yaml_order_and_unicode :
    (∀ m : List (String × Yaml), save_yaml (.mapV m) =
      "\x7b" ++ String.intercalate ", "
        (m.map (fun kv => kv.1 ++ ": " ++ save_yaml kv.2)) ++ "\x7d")
    ∧ (∀ s : String, save_yaml (.strV s) = s) := by
  constructor
  · intro m
    simp only [save_yaml, yamlDump, Bool.false_eq_true, if_false,
      dumpEntries_eq_map, List.map_map]
    congr 1
  · intro s
    simp [save_yaml, yamlDump, renderScalar]

/-- C8: each rewriter script's per-file operation — the type-annotation
rewriter, the two schema-indentation fixers and the schema-ref fixer —
writes its file back only when the transformed content differs: on any
fixed point of its transformation it reports no change and writes
nothing. -/
theorem rewriters_skip_unchanged (sub : String → String) (c : String)
    (w : Bool) (h : sub c = c) :
    fix_any_types_in_file sub (some c) w = (false, none)
    ∧ fix_yaml_schema_indentation sub c = (false, none)
    ∧ fix_schema_ref_indentation sub c = (false, none)
    ∧ fix_config_schema_indentation sub c = (false, none) := by
  refine ⟨?_, ?_, ?_, ?_⟩ <;>
    simp [fix_any_types_in_file, fix_yaml_schema_indentation,
      fix_schema_ref_indentation, fix_config_schema_indentation, h]

/-- Witness for C8 with the identity transformation. -/
theorem rewriters_skip_unchanged_witness :
    fix_any_types_in_file (fun s => s) (some "a: b") true = (false, none)
    ∧ fix_yaml_schema_indentation (fun s => s) "a: b" = (false, none)
    ∧ fix_schema_ref_indentation (fun s => s) "a: b" = (false, none)
    ∧ fix_config_schema_indentation (fun s => s) "a: b" = (false, none) :=
  rewriters_skip_unchanged (fun s => s) "a: b" true rfl

/-- C9: every successful Remove Endpoints run leaves a document with a
top-level `paths` key, and every successful Remove Fields run leaves a
`components` mapping containing a `schemas` key; on documents where
these keys are absent they are inserted bound to empty mappings, so the
operations are not no-ops there. -/
theorem removal_inserts_sections :
    (∀ d d₁ : Yaml, remove_paths d = .ok d₁ →
      ∃ m₁, d₁ = .mapV m₁ ∧ (mapGet m₁ "paths").isSome)
    ∧ (∀ d d₂ : Yaml, remove_user_fields d = .ok d₂ →
        ∃ m₂ cm', d₂ = .mapV m₂ ∧
          mapGet m₂ "components" = some (.mapV cm') ∧
          (mapGet cm' "schemas").isSome)
    ∧ remove_paths (.mapV []) = .ok (.mapV [("paths", .mapV [])])
    ∧ remove_user_fields (.mapV []) =
        .ok (.mapV [("components", .mapV [("schemas", .mapV [])])])
    ∧ Yaml.mapV [("paths", .mapV [])] ≠ .mapV []
    ∧ Yaml.mapV [("components", .mapV [("schemas", .mapV [])])] ≠ .mapV [] := by
  refine ⟨?_, ?_, by decide, by decide, by decide, by decide⟩
  · intro d d₁ h
    obtain ⟨m, p₁, _, _, hd₁⟩ := remove_paths_ok d d₁ h
    exact ⟨mapSet m "paths" p₁, hd₁, by simp [mapGet_mapSet_self]⟩
  · intro d d₂ h
    obtain ⟨m, cm, sm, sm', _, _, _, _, hd₂⟩ := remove_user_fields_ok d d₂ h
    exact ⟨mapSet m "components" (.mapV (mapSet cm "schemas" (.mapV sm'))),
      mapSet cm "schemas" (.mapV sm'), hd₂,
      mapGet_mapSet_self m "components" _,
      by simp [mapGet_mapSet_self]⟩

/-- Witness for C9 at the empty document, where both sections are
inserted. -/
theorem removal_inserts_sections_witness :
    (∃ m₁, Yaml.mapV [("paths", .mapV [])] = .mapV m₁ ∧
      (mapGet m₁ "paths").isSome)
    ∧ (∃ m₂ cm', Yaml.mapV [("components", .mapV [("schemas", .mapV [])])] =
          .mapV m₂ ∧ mapGet m₂ "components" = some (.mapV cm') ∧
          (mapGet cm' "schemas").isSome) :=
  ⟨removal_inserts_sections.1 (.mapV []) _ (by decide),
   removal_inserts_sections.2.1 (.mapV []) _ (by decide)⟩

/-- C10: the per-file operation of the type-annotation rewriter never
raises — a read failure or a write failure is caught and reported as
`false` with nothing written — and it returns `true` exactly when the
substituted content differs from the original, the write succeeds and
the file is rewritten with the substituted content. -/
theorem fix_any_types_never_raises (sub : String → String)
    (r : Option String) (w : Bool) :
    fix_any_types_in_file sub none w = (false, none)
    ∧ fix_any_types_in_file sub r false = (false, none)
    ∧ ((fix_any_types_in_file sub r w).1 = true ↔
        ∃ c, r = some c ∧ sub c ≠ c ∧ w = true ∧
          (fix_any_types_in_file sub r w).2 = some (sub c)) := by
  refine ⟨by simp [fix_any_types_in_file], ?_, ?_⟩
  · cases r with
    | none => simp [fix_any_types_in_file]
    | some c => by_cases h : sub c = c <;> simp [fix_any_types_in_file, h]
  · cases r with
    | none => simp [fix_any_types_in_file]
    | some c =>
        by_cases h : sub c = c
        · simp [fix_any_types_in_file, h]
        · cases w <;> simp [fix_any_types_in_file, h]

end Studio
